import Mathlib

/-!
Verification development for the fastleng sequence-length statistics pipeline.

The Rust sources are embedded shallowly:
* `BTreeMap<usize, u64>` becomes an association list of `(length, count)` pairs
  kept in strictly ascending key order (the iteration order of a `BTreeMap`);
* `u64`/`usize` arithmetic becomes `Nat` arithmetic (no claim touches overflow);
* `f64` values and comparisons are modelled exactly with `ℚ`;
* Rust `assert!` panics and `Result::Err` returns become `Option`/`Except`
  failure values;
* a sequence source is a list of already decoded records, each record either a
  decoded payload (`Except.ok`) or a mid-stream decode failure (`Except.error`).
-/

namespace Fastleng

/-- Embedding of `BTreeMap<usize, u64>` from the Rust source: an association
list of `(sequence length, occurrence count)` pairs, iterated in ascending key
order.  The `BTreeMap` ordering invariant is `SortedKeys` below. -/
abbrev Dist := List (Nat × Nat)

/-- The `BTreeMap` invariant: keys are strictly ascending (hence distinct). -/
def SortedKeys (d : Dist) : Prop := d.Pairwise (fun a b => a.1 < b.1)

/-- Counts with every key positive; every distribution the loaders build
satisfies this (entries are created at 1 and only ever incremented). -/
def PosCounts (d : Dist) : Prop := ∀ p ∈ d, 0 < p.2

/-- Key membership in a distribution. -/
def containsKey (d : Dist) (k : Nat) : Prop := k ∈ d.map Prod.fst

/-- Count stored for key `k` (0 when the key is absent). -/
def getCount (d : Dist) (k : Nat) : Nat :=
  ((d.filter (fun p => p.1 == k)).map (fun p => p.2)).sum

/-- Total bases `Σ (length × count)` of a distribution. -/
def totalBases (d : Dist) : Nat := (d.map (fun p => p.1 * p.2)).sum

/-- Total sequences `Σ count` of a distribution. -/
def totalSeqs (d : Dist) : Nat := (d.map (fun p => p.2)).sum

/-- Bases contributed by entries whose length is at least `k`:
`Σ (length × count)` over the keys `≥ k`. -/
def basesGE (d : Dist) (k : Nat) : Nat :=
  ((d.filter (fun p => decide (k ≤ p.1))).map (fun p => p.1 * p.2)).sum

/-- Sequences contributed by entries whose length is at most `k`:
`Σ count` over the keys `≤ k`. -/
def countLE (d : Dist) (k : Nat) : Nat :=
  ((d.filter (fun p => decide (p.1 ≤ k))).map (fun p => p.2)).sum

/-- Fully expanded multiset of lengths, in ascending order when the
distribution is sorted: each length repeated `count` times. -/
def expand : Dist → List Nat
  | [] => []
  | (seq_len, seq_count) :: rest => List.replicate seq_count seq_len ++ expand rest

/-! ### `length_stats.rs` -/

/-- Embedding of `compute_total_counts`: one ascending pass accumulating
`total_bases += length * count` and `total_seqs += count`. -/
def compute_total_counts (length_counts : Dist) : Nat × Nat :=
  length_counts.foldl (fun acc p => (acc.1 + p.1 * p.2, acc.2 + p.2)) (0, 0)

/-- Loop of `compute_median_length`: walk ascending with a running
`total_observed`, returning the first key at which it strictly exceeds
`middle_seq_index`; `none` when the walk falls through. -/
def medianGo (middle_seq_index : Nat) : Dist → Nat → Option Nat
  | [], _ => none
  | (seq_len, seq_count) :: rest, total_observed =>
    if middle_seq_index < total_observed + seq_count then some seq_len
    else medianGo middle_seq_index rest (total_observed + seq_count)

/-- Embedding of `compute_median_length`.  The Rust function returns the found
key as `f64`, and on fall-through asserts `total_seqs == 0 && is_empty` before
returning `0.0`; the assertion failure (panic) is modelled as `none`. -/
def compute_median_length (length_counts : Dist) (total_seqs : Nat) : Option ℚ :=
  match medianGo (total_seqs / 2) length_counts 0 with
  | some seq_len => some (seq_len : ℚ)
  | none => if total_seqs = 0 ∧ length_counts = [] then some 0 else none

/-- The Rust comparison `current_bases as f64 >= (target * total_bases) as f64 / 100.0`,
modelled with exact rationals in place of `f64`. -/
def nTargetReached (target total_bases current_bases : Nat) : Prop :=
  ((target * total_bases : Nat) : ℚ) / 100 ≤ ((current_bases : Nat) : ℚ)

instance (t tb c : Nat) : Decidable (nTargetReached t tb c) :=
  inferInstanceAs (Decidable (_ ≤ _))

/-- Loop of `compute_n_score`: walk the distribution in descending key order
(`iter().rev()` of the `BTreeMap`, i.e. the reversed sorted list) accumulating
`current_bases`, returning the first key whose accumulated bases reach the
target; `none` when the walk falls through. -/
def nScoreGo (target total_bases : Nat) : List (Nat × Nat) → Nat → Option Nat
  | [], _ => none
  | (seq_len, seq_count) :: rest, current_bases =>
    if nTargetReached target total_bases (current_bases + seq_len * seq_count) then
      some seq_len
    else nScoreGo target total_bases rest (current_bases + seq_len * seq_count)

/-- Embedding of `compute_n_score`.  The leading
`assert!((1..=99).contains(&target))` and the trailing
`assert!(total_bases == 0 && length_counts.is_empty())` panics are both
modelled as `none`. -/
def compute_n_score (length_counts : Dist) (total_bases target : Nat) : Option Nat :=
  if 1 ≤ target ∧ target ≤ 99 then
    match nScoreGo target total_bases length_counts.reverse 0 with
    | some seq_len => some seq_len
    | none => if total_bases = 0 ∧ length_counts = [] then some 0 else none
  else none

/-- Embedding of the `LengthStats` struct.  The two `f64` fields are modelled
as `ℚ`; note `mean_length` is the IEEE quotient `total_bases / total_seqs`,
which is NaN (non-finite) on the 0/0 edge case, while the `ℚ` model maps that
same edge case to `0`. -/
structure LengthStats where
  total_bases : Nat
  total_sequences : Nat
  mean_length : ℚ
  median_length : ℚ
  n10 : Nat
  n25 : Nat
  n50 : Nat
  n75 : Nat
  n90 : Nat
  deriving Repr, DecidableEq

/-- Embedding of `compute_length_stats`: totals once, then median and the five
N-scores from the same distribution and totals.  Any panic in a component
(`none`) propagates. -/
def compute_length_stats (length_counts : Dist) : Option LengthStats :=
  let t := compute_total_counts length_counts
  (compute_median_length length_counts t.2).bind fun med =>
  (compute_n_score length_counts t.1 10).bind fun v10 =>
  (compute_n_score length_counts t.1 25).bind fun v25 =>
  (compute_n_score length_counts t.1 50).bind fun v50 =>
  (compute_n_score length_counts t.1 75).bind fun v75 =>
  (compute_n_score length_counts t.1 90).bind fun v90 =>
  some ⟨t.1, t.2, (t.1 : ℚ) / (t.2 : ℚ), med, v10, v25, v50, v75, v90⟩

/-! ### `fastx_loader.rs` -/

/-- The `BTreeMap` mutation `*hash_stats.entry(seq_len).or_insert(0) += 1`
on the sorted-list embedding: insert with count 1 if absent, else increment. -/
def incr (d : Dist) (seq_len : Nat) : Dist :=
  match d with
  | [] => [(seq_len, 1)]
  | (k, c) :: rest =>
    if seq_len < k then (seq_len, 1) :: (k, c) :: rest
    else if seq_len = k then (k, c + 1) :: rest
    else (k, c) :: incr rest seq_len

/-- Record loop of `gather_fastx_stats_with_seed`: each record either yields a
length (`ok`) or fails to decode, in which case the `record?` operator aborts
the pass with that error. -/
def gatherGo : List (Except String Nat) → Dist → Except String Dist
  | [], d => Except.ok d
  | Except.error e :: _, _ => Except.error e
  | Except.ok seq_len :: rest, d => gatherGo rest (incr d seq_len)

/-- Embedding of `gather_fastx_stats_with_seed`: start from the optional seed
(empty map when `none`) and fold the record stream. -/
def gather_fastx_stats_with_seed (records : List (Except String Nat))
    (initial_counts : Option Dist) : Except String Dist :=
  gatherGo records (initial_counts.getD [])

/-- Embedding of `gather_fastx_stats`: seedless variant. -/
def gather_fastx_stats (records : List (Except String Nat)) : Except String Dist :=
  gather_fastx_stats_with_seed records none

/-- File loop of `gather_multifastx_stats`: thread the running distribution as
seed through each file in order, aborting on the first failure. -/
def multiGo : List (List (Except String Nat)) → Dist → Except String Dist
  | [], d => Except.ok d
  | f :: rest, d =>
    match gather_fastx_stats_with_seed f (some d) with
    | Except.ok result => multiGo rest result
    | Except.error e => Except.error e

/-- Embedding of `gather_multifastx_stats`: start from the empty distribution. -/
def gather_multifastx_stats (files : List (List (Except String Nat))) :
    Except String Dist :=
  multiGo files []

/-! ### `bam_loader.rs` -/

/-- Record loop of `gather_bam_stats_with_seed`.  A decoded record carries its
`seq_len` and its `is_unmapped` flag; the boolean state is the local
`warning_triggered` flag.  The second component of the result counts the
advisory warnings emitted during the pass (the `warn!` side effect). -/
def bamGo : List (Except String (Nat × Bool)) → Dist → Bool → Except String Dist × Nat
  | [], d, _ => (Except.ok d, 0)
  | Except.error e :: _, _, _ => (Except.error e, 0)
  | Except.ok (seq_len, unmapped) :: rest, d, warning_triggered =>
    let emit := !warning_triggered && !unmapped
    let res := bamGo rest (incr d seq_len) (warning_triggered || !unmapped)
    (res.1, (if emit then 1 else 0) + res.2)

/-- Embedding of `gather_bam_stats_with_seed`: the warning flag starts `false`
for every pass; returns the final distribution (or the aborting error)
together with the number of warnings emitted. -/
def gather_bam_stats_with_seed (records : List (Except String (Nat × Bool)))
    (initial_counts : Option Dist) : Except String Dist × Nat :=
  bamGo records (initial_counts.getD []) false

/-! ### Decidability of the data-model predicates -/

instance (d : Dist) : Decidable (SortedKeys d) := List.instDecidablePairwise d

instance (d : Dist) : Decidable (PosCounts d) := List.decidableBAll _ d

instance (d : Dist) (k : Nat) : Decidable (containsKey d k) :=
  inferInstanceAs (Decidable (_ ∈ _))

/-! ### Basic facts about counts and sums -/

theorem containsKey_iff (d : Dist) (k : Nat) :
    containsKey d k ↔ ∃ p ∈ d, p.1 = k := by
  simp [containsKey]

theorem getCount_cons (a c k : Nat) (r : Dist) :
    getCount ((a, c) :: r) k = (if a = k then c else 0) + getCount r k := by
  by_cases h : a = k <;> simp [getCount, List.filter_cons, h]

theorem countLE_cons (a c k : Nat) (r : Dist) :
    countLE ((a, c) :: r) k = (if a ≤ k then c else 0) + countLE r k := by
  by_cases h : a ≤ k <;> simp [countLE, List.filter_cons, h]

theorem basesGE_cons (a c k : Nat) (r : Dist) :
    basesGE ((a, c) :: r) k = (if k ≤ a then a * c else 0) + basesGE r k := by
  by_cases h : k ≤ a <;> simp [basesGE, List.filter_cons, h]

theorem getCount_eq_zero {d : Dist} {k : Nat} (h : ∀ p ∈ d, p.1 ≠ k) :
    getCount d k = 0 := by
  induction d with
  | nil => rfl
  | cons p r ih =>
    obtain ⟨a, c⟩ := p
    rw [getCount_cons, if_neg (h (a, c) (List.mem_cons_self _ _)),
      ih fun q hq => h q (List.mem_cons_of_mem _ hq)]

theorem countLE_eq_zero {d : Dist} {k : Nat} (h : ∀ p ∈ d, k < p.1) :
    countLE d k = 0 := by
  induction d with
  | nil => rfl
  | cons p r ih =>
    obtain ⟨a, c⟩ := p
    rw [countLE_cons, if_neg (by exact Nat.not_le.mpr (h (a, c) (List.mem_cons_self _ _))),
      ih fun q hq => h q (List.mem_cons_of_mem _ hq)]

theorem basesGE_eq_zero {d : Dist} {k : Nat} (h : ∀ p ∈ d, p.1 < k) :
    basesGE d k = 0 := by
  induction d with
  | nil => rfl
  | cons p r ih =>
    obtain ⟨a, c⟩ := p
    rw [basesGE_cons, if_neg (by exact Nat.not_le.mpr (h (a, c) (List.mem_cons_self _ _))),
      ih fun q hq => h q (List.mem_cons_of_mem _ hq)]

theorem containsKey_of_getCount_pos {d : Dist} {k : Nat} (h : 0 < getCount d k) :
    containsKey d k := by
  by_contra hc
  rw [getCount_eq_zero] at h
  · exact Nat.lt_irrefl 0 h
  · intro p hp hpk
    exact hc ((containsKey_iff d k).mpr ⟨p, hp, hpk⟩)

theorem totalBases_reverse (d : Dist) : totalBases d.reverse = totalBases d :=
  (d.reverse_perm.map _).sum_eq

theorem basesGE_reverse (d : Dist) (k : Nat) : basesGE d.reverse k = basesGE d k :=
  (((d.reverse_perm).filter _).map _).sum_eq

theorem containsKey_reverse (d : Dist) (k : Nat) :
    containsKey d.reverse k ↔ containsKey d k := by
  simp [containsKey]

theorem compute_total_counts_go (d : Dist) (a b : Nat) :
    d.foldl (fun acc p => (acc.1 + p.1 * p.2, acc.2 + p.2)) (a, b)
      = (a + totalBases d, b + totalSeqs d) := by
  induction d generalizing a b with
  | nil => simp [totalBases, totalSeqs]
  | cons p r ih =>
    rw [List.foldl_cons, ih]
    simp [totalBases, totalSeqs, Prod.ext_iff]
    omega

theorem compute_total_counts_eq (d : Dist) :
    compute_total_counts d = (totalBases d, totalSeqs d) := by
  have h := compute_total_counts_go d 0 0
  simpa [compute_total_counts] using h

theorem nTargetReached_iff (t tb c : Nat) :
    nTargetReached t tb c ↔ t * tb ≤ 100 * c := by
  unfold nTargetReached
  rw [div_le_iff₀ (by norm_num : (0 : ℚ) < 100), mul_comm ((c : Nat) : ℚ) 100]
  exact_mod_cast Iff.rfl

theorem nTargetReached_mono {t1 t2 tb c : Nat} (ht : t1 ≤ t2)
    (h : nTargetReached t2 tb c) : nTargetReached t1 tb c := by
  rw [nTargetReached_iff] at h ⊢
  exact le_trans (Nat.mul_le_mul_right tb ht) h

/-! ### Characterizing the median walk -/

theorem medianGo_sound {mid : Nat} {d : Dist} {observed l : Nat}
    (hs : SortedKeys d) (h : medianGo mid d observed = some l) :
    containsKey d l ∧ mid < observed + countLE d l ∧
      ∀ k, containsKey d k → k < l → observed + countLE d k ≤ mid := by
  induction d generalizing observed with
  | nil => simp [medianGo] at h
  | cons p r ih =>
    obtain ⟨a, c⟩ := p
    rw [SortedKeys, List.pairwise_cons] at hs
    obtain ⟨hgt, hr⟩ := hs
    rw [medianGo] at h
    by_cases hcase : mid < observed + c
    · rw [if_pos hcase] at h
      injection h with h
      subst h
      refine ⟨by simp [containsKey], ?_, ?_⟩
      · rw [countLE_cons, if_pos le_rfl, countLE_eq_zero hgt]
        omega
      · intro k hk hkl
        exfalso
        rcases (containsKey_iff _ _).mp hk with ⟨q, hq, hqk⟩
        rcases List.mem_cons.mp hq with hq1 | hq2
        · rw [hq1] at hqk
          simp at hqk
          omega
        · have := hgt q hq2
          omega
    · rw [if_neg hcase] at h
      obtain ⟨h1, h2, h3⟩ := ih hr h
      have hal : a < l := by
        rcases (containsKey_iff _ _).mp h1 with ⟨q, hq, hqk⟩
        have := hgt q hq
        omega
      refine ⟨?_, ?_, ?_⟩
      · rcases (containsKey_iff _ _).mp h1 with ⟨q, hq, hqk⟩
        exact (containsKey_iff _ _).mpr ⟨q, List.mem_cons_of_mem _ hq, hqk⟩
      · rw [countLE_cons, if_pos (by omega : a ≤ l)]
        omega
      · intro k hk hkl
        rcases (containsKey_iff _ _).mp hk with ⟨q, hq, hqk⟩
        rcases List.mem_cons.mp hq with hq1 | hq2
        · have hka : k = a := by rw [← hqk, hq1]
          subst hka
          rw [countLE_cons, if_pos le_rfl, countLE_eq_zero hgt]
          omega
        · have hkr : containsKey r k := (containsKey_iff _ _).mpr ⟨q, hq2, hqk⟩
          have := h3 k hkr hkl
          have hak : a < k := by
            have := hgt q hq2
            omega
          rw [countLE_cons, if_pos (by omega : a ≤ k)]
          omega

theorem medianGo_some {mid : Nat} {d : Dist} {observed : Nat}
    (hobs : observed ≤ mid) (h : mid < observed + totalSeqs d) :
    ∃ l, medianGo mid d observed = some l := by
  induction d generalizing observed with
  | nil =>
    exfalso
    simp [totalSeqs] at h
    omega
  | cons p r ih =>
    obtain ⟨a, c⟩ := p
    rw [medianGo]
    by_cases hcase : mid < observed + c
    · exact ⟨a, by rw [if_pos hcase]⟩
    · rw [if_neg hcase]
      refine ih (by omega) ?_
      have htot : totalSeqs ((a, c) :: r) = c + totalSeqs r := by
        simp [totalSeqs]
      omega

theorem medianGo_expand {mid : Nat} {d : Dist} {observed l : Nat}
    (hobs : observed ≤ mid) (h : medianGo mid d observed = some l) :
    (expand d).getD (mid - observed) 0 = l := by
  induction d generalizing observed with
  | nil => simp [medianGo] at h
  | cons p r ih =>
    obtain ⟨a, c⟩ := p
    rw [medianGo] at h
    rw [expand]
    by_cases hcase : mid < observed + c
    · rw [if_pos hcase] at h
      injection h with h
      subst h
      rw [List.getD_append]
      · simp [List.getD, List.getElem?_replicate, (by omega : mid - observed < c)]
      · simpa using (by omega : mid - observed < c)
    · rw [if_neg hcase] at h
      have hrec := ih (by omega : observed + c ≤ mid) h
      rw [List.getD_append_right]
      · simpa [List.length_replicate,
          (show mid - observed - c = mid - (observed + c) by omega)] using hrec
      · simpa using (show c ≤ mid - observed by omega)

/-! ### Characterizing the N-score walk -/

theorem nScoreGo_sound {t tb : Nat} {r : List (Nat × Nat)} {current l : Nat}
    (hs : r.Pairwise (fun a b => b.1 < a.1)) (h : nScoreGo t tb r current = some l) :
    containsKey r l ∧ nTargetReached t tb (current + basesGE r l) ∧
      ∀ k, containsKey r k → l < k → ¬ nTargetReached t tb (current + basesGE r k) := by
  induction r generalizing current with
  | nil => simp [nScoreGo] at h
  | cons p r ih =>
    obtain ⟨a, c⟩ := p
    rw [List.pairwise_cons] at hs
    obtain ⟨hlt, hr⟩ := hs
    rw [nScoreGo] at h
    by_cases hcase : nTargetReached t tb (current + a * c)
    · rw [if_pos hcase] at h
      injection h with h
      subst h
      refine ⟨by simp [containsKey], ?_, ?_⟩
      · rw [basesGE_cons, if_pos le_rfl, basesGE_eq_zero hlt]
        simpa using hcase
      · intro k hk hkl
        exfalso
        rcases (containsKey_iff _ _).mp hk with ⟨q, hq, hqk⟩
        rcases List.mem_cons.mp hq with hq1 | hq2
        · rw [hq1] at hqk
          simp at hqk
          omega
        · have := hlt q hq2
          omega
    · rw [if_neg hcase] at h
      obtain ⟨h1, h2, h3⟩ := ih hr h
      have hla : l < a := by
        rcases (containsKey_iff _ _).mp h1 with ⟨q, hq, hqk⟩
        have := hlt q hq
        omega
      refine ⟨?_, ?_, ?_⟩
      · rcases (containsKey_iff _ _).mp h1 with ⟨q, hq, hqk⟩
        exact (containsKey_iff _ _).mpr ⟨q, List.mem_cons_of_mem _ hq, hqk⟩
      · rw [basesGE_cons, if_pos (by omega : l ≤ a), ← Nat.add_assoc]
        exact h2
      · intro k hk hkl
        rcases (containsKey_iff _ _).mp hk with ⟨q, hq, hqk⟩
        rcases List.mem_cons.mp hq with hq1 | hq2
        · have hka : k = a := by rw [← hqk, hq1]
          subst hka
          rw [basesGE_cons, if_pos le_rfl, basesGE_eq_zero hlt]
          simpa using hcase
        · have hkr : containsKey r k := (containsKey_iff _ _).mpr ⟨q, hq2, hqk⟩
          have hka : k ≤ a := by
            have := hlt q hq2
            omega
          rw [basesGE_cons, if_pos hka, ← Nat.add_assoc]
          exact h3 k hkr hkl

theorem nScoreGo_some {t tb : Nat} {r : List (Nat × Nat)} {current : Nat}
    (hne : r ≠ []) (h : nTargetReached t tb (current + totalBases r)) :
    ∃ l, nScoreGo t tb r current = some l := by
  induction r generalizing current with
  | nil => exact absurd rfl hne
  | cons p r ih =>
    obtain ⟨a, c⟩ := p
    rw [nScoreGo]
    by_cases hcase : nTargetReached t tb (current + a * c)
    · exact ⟨a, by rw [if_pos hcase]⟩
    · rw [if_neg hcase]
      have hbases : totalBases ((a, c) :: r) = a * c + totalBases r := by
        simp [totalBases]
      cases r with
      | nil =>
        exfalso
        apply hcase
        have hb : totalBases [(a, c)] = a * c := by simp [totalBases]
        rw [hb] at h
        exact h
      | cons q r2 =>
        refine ih (by simp) ?_
        rw [Nat.add_assoc, ← hbases]
        exact h

/-! ### `compute_n_score` at the top level -/

theorem compute_n_score_some {d : Dist} {tb t : Nat}
    (hs : SortedKeys d) (hne : d ≠ []) (htb : tb = totalBases d)
    (h1 : 1 ≤ t) (h2 : t ≤ 99) :
    ∃ l, compute_n_score d tb t = some l := by
  unfold compute_n_score
  rw [if_pos ⟨h1, h2⟩]
  have hrne : d.reverse ≠ [] := by simpa using hne
  have hreach : nTargetReached t tb (0 + totalBases d.reverse) := by
    rw [Nat.zero_add, totalBases_reverse, nTargetReached_iff, htb]
    exact Nat.mul_le_mul_right _ (by omega)
  obtain ⟨l, hl⟩ := nScoreGo_some hrne hreach
  exact ⟨l, by rw [hl]⟩

theorem compute_n_score_sound {d : Dist} {tb t l : Nat}
    (hs : SortedKeys d) (hne : d ≠ []) (h : compute_n_score d tb t = some l) :
    containsKey d l ∧ nTargetReached t tb (basesGE d l) ∧
      ∀ k, containsKey d k → l < k → ¬ nTargetReached t tb (basesGE d k) := by
  unfold compute_n_score at h
  by_cases hrange : 1 ≤ t ∧ t ≤ 99
  · rw [if_pos hrange] at h
    cases hgo : nScoreGo t tb d.reverse 0 with
    | none =>
      rw [hgo, if_neg (by simp [hne])] at h
      cases h
    | some v =>
      rw [hgo] at h
      injection h with h
      subst h
      have hdesc : d.reverse.Pairwise (fun a b => b.1 < a.1) :=
        List.pairwise_reverse.mpr hs
      obtain ⟨m1, m2, m3⟩ := nScoreGo_sound hdesc hgo
      rw [containsKey_reverse] at m1
      rw [basesGE_reverse, Nat.zero_add] at m2
      refine ⟨m1, m2, ?_⟩
      intro k hk hlk
      have := m3 k ((containsKey_reverse d k).mpr hk) hlk
      rwa [basesGE_reverse, Nat.zero_add] at this
  · rw [if_neg hrange] at h
    cases h

theorem compute_n_score_nil {tb t l : Nat} (h : compute_n_score [] tb t = some l) :
    l = 0 := by
  unfold compute_n_score at h
  by_cases hrange : 1 ≤ t ∧ t ≤ 99
  · rw [if_pos hrange] at h
    by_cases htb : tb = 0
    · simp only [List.reverse_nil, nScoreGo] at h
      rw [if_pos ⟨htb, trivial⟩] at h
      injection h with h
      exact h.symm
    · simp only [List.reverse_nil, nScoreGo] at h
      rw [if_neg (by simp [htb])] at h
      cases h
  · rw [if_neg hrange] at h
    cases h

theorem compute_n_score_mono {d : Dist} {tb t1 t2 l1 l2 : Nat}
    (hs : SortedKeys d) (ht : t1 ≤ t2)
    (h1 : compute_n_score d tb t1 = some l1) (h2 : compute_n_score d tb t2 = some l2) :
    l2 ≤ l1 := by
  rcases eq_or_ne d [] with rfl | hne
  · rw [compute_n_score_nil h1, compute_n_score_nil h2]
  · obtain ⟨c1, r1, f1⟩ := compute_n_score_sound hs hne h1
    obtain ⟨c2, r2, _⟩ := compute_n_score_sound hs hne h2
    by_contra hlt
    push_neg at hlt
    exact f1 l2 c2 hlt (nTargetReached_mono ht r2)

/-! ### The aggregation loops -/

theorem gatherGo_ok (lengths : List Nat) (d : Dist) :
    gatherGo (lengths.map Except.ok) d = Except.ok (lengths.foldl incr d) := by
  induction lengths generalizing d with
  | nil => rfl
  | cons a r ih => simp [gatherGo, ih]

theorem getCount_incr (d : Dist) (a k : Nat) :
    getCount (incr d a) k = getCount d k + (if a = k then 1 else 0) := by
  induction d with
  | nil =>
    by_cases h : a = k <;> simp [incr, getCount, h]
  | cons p r ih =>
    obtain ⟨b, c⟩ := p
    rw [incr]
    rcases Nat.lt_trichotomy a b with h1 | h1 | h1
    · rw [if_pos h1]
      simp only [getCount_cons]
      by_cases ha : a = k <;> by_cases hb : b = k <;> simp [ha, hb] <;> omega
    · rw [if_neg (by omega), if_pos h1]
      subst h1
      simp only [getCount_cons]
      by_cases ha : a = k <;> simp [ha] <;> omega
    · rw [if_neg (by omega), if_neg (by omega)]
      simp only [getCount_cons, ih]
      omega

theorem containsKey_incr (d : Dist) (a k : Nat) :
    containsKey (incr d a) k ↔ containsKey d k ∨ k = a := by
  induction d with
  | nil => simp [incr, containsKey, eq_comm]
  | cons p r ih =>
    obtain ⟨b, c⟩ := p
    rw [incr]
    rcases Nat.lt_trichotomy a b with h1 | h1 | h1
    · rw [if_pos h1]
      simp [containsKey, eq_comm]
      tauto
    · rw [if_neg (by omega), if_pos h1]
      subst h1
      simp [containsKey, eq_comm]
      tauto
    · rw [if_neg (by omega), if_neg (by omega)]
      simp [containsKey] at ih ⊢
      tauto

theorem getCount_foldl (lengths : List Nat) (d : Dist) (k : Nat) :
    getCount (lengths.foldl incr d) k = getCount d k + lengths.count k := by
  induction lengths generalizing d with
  | nil => simp
  | cons a r ih =>
    rw [List.foldl_cons, ih, getCount_incr, List.count_cons]
    by_cases h : a = k <;> simp [h] <;> omega

theorem containsKey_foldl (lengths : List Nat) (d : Dist) (k : Nat)
    (h : containsKey d k) : containsKey (lengths.foldl incr d) k := by
  induction lengths generalizing d with
  | nil => exact h
  | cons a r ih =>
    rw [List.foldl_cons]
    exact ih _ ((containsKey_incr d a k).mpr (Or.inl h))

theorem sortedKeys_incr {d : Dist} (hs : SortedKeys d) (a : Nat) :
    SortedKeys (incr d a) := by
  induction d with
  | nil => simp [incr, SortedKeys]
  | cons p r ih =>
    obtain ⟨b, c⟩ := p
    rw [SortedKeys, List.pairwise_cons] at hs
    obtain ⟨hb, hr⟩ := hs
    rw [incr]
    rcases Nat.lt_trichotomy a b with h1 | h1 | h1
    · rw [if_pos h1]
      refine List.Pairwise.cons ?_ (List.Pairwise.cons hb hr)
      intro q hq
      rcases List.mem_cons.mp hq with hq1 | hq2
      · rw [hq1]
        exact h1
      · have := hb q hq2
        omega
    · rw [if_neg (by omega), if_pos h1]
      exact List.Pairwise.cons hb hr
    · rw [if_neg (by omega), if_neg (by omega)]
      refine List.Pairwise.cons ?_ (ih hr)
      intro q hq
      have hq' : containsKey (incr r a) q.1 :=
        (containsKey_iff _ _).mpr ⟨q, hq, rfl⟩
      rcases (containsKey_incr r a q.1).mp hq' with hk | hk
      · rcases (containsKey_iff _ _).mp hk with ⟨q2, hq2, hq2k⟩
        have := hb q2 hq2
        omega
      · omega

theorem posCounts_incr {d : Dist} (hp : PosCounts d) (a : Nat) :
    PosCounts (incr d a) := by
  induction d with
  | nil =>
    intro q hq
    simp [incr] at hq
    simp [hq]
  | cons p r ih =>
    obtain ⟨b, c⟩ := p
    rw [incr]
    have hbc : 0 < c := hp (b, c) (List.mem_cons_self _ _)
    have hr : PosCounts r := fun q hq => hp q (List.mem_cons_of_mem _ hq)
    rcases Nat.lt_trichotomy a b with h1 | h1 | h1
    · rw [if_pos h1]
      intro q hq
      rcases List.mem_cons.mp hq with hq1 | hq2
      · simp [hq1]
      · exact hp q hq2
    · rw [if_neg (by omega), if_pos h1]
      intro q hq
      rcases List.mem_cons.mp hq with hq1 | hq2
      · simp [hq1]
      · exact hr q hq2
    · rw [if_neg (by omega), if_neg (by omega)]
      intro q hq
      rcases List.mem_cons.mp hq with hq1 | hq2
      · simp [hq1]
        omega
      · exact ih hr q hq2

theorem sortedKeys_foldl (lengths : List Nat) {d : Dist} (hs : SortedKeys d) :
    SortedKeys (lengths.foldl incr d) := by
  induction lengths generalizing d with
  | nil => exact hs
  | cons a r ih =>
    rw [List.foldl_cons]
    exact ih (sortedKeys_incr hs a)

theorem posCounts_foldl (lengths : List Nat) {d : Dist} (hp : PosCounts d) :
    PosCounts (lengths.foldl incr d) := by
  induction lengths generalizing d with
  | nil => exact hp
  | cons a r ih =>
    rw [List.foldl_cons]
    exact ih (posCounts_incr hp a)

/-- Sorted distributions with positive counts are canonical: equal counts at
every key forces equal lists. -/
theorem dist_ext {d1 : Dist} : ∀ {d2 : Dist}, SortedKeys d1 → SortedKeys d2 →
    PosCounts d1 → PosCounts d2 → (∀ k, getCount d1 k = getCount d2 k) → d1 = d2 := by
  induction d1 with
  | nil =>
    intro d2 _ hs2 _ hp2 h
    cases d2 with
    | nil => rfl
    | cons q r2 =>
      obtain ⟨b, e⟩ := q
      exfalso
      have hb := h b
      rw [getCount_cons, if_pos rfl] at hb
      have : getCount ([] : Dist) b = 0 := rfl
      have he : 0 < e := hp2 (b, e) (List.mem_cons_self _ _)
      omega
  | cons p r1 ih =>
    intro d2 hs1 hs2 hp1 hp2 h
    obtain ⟨a, c⟩ := p
    rw [SortedKeys, List.pairwise_cons] at hs1
    obtain ⟨ha1, hr1⟩ := hs1
    have hc : 0 < c := hp1 (a, c) (List.mem_cons_self _ _)
    have hr1p : PosCounts r1 := fun q hq => hp1 q (List.mem_cons_of_mem _ hq)
    have hga : getCount ((a, c) :: r1) a = c := by
      rw [getCount_cons, if_pos rfl,
        getCount_eq_zero (fun q hq => by have := ha1 q hq; omega)]
      omega
    cases d2 with
    | nil =>
      exfalso
      have hb := h a
      rw [hga] at hb
      have : getCount ([] : Dist) a = 0 := rfl
      omega
    | cons q r2 =>
      obtain ⟨b, e⟩ := q
      rw [SortedKeys, List.pairwise_cons] at hs2
      obtain ⟨hb1, hr2⟩ := hs2
      have he : 0 < e := hp2 (b, e) (List.mem_cons_self _ _)
      have hr2p : PosCounts r2 := fun q hq => hp2 q (List.mem_cons_of_mem _ hq)
      have hgb : getCount ((b, e) :: r2) b = e := by
        rw [getCount_cons, if_pos rfl,
          getCount_eq_zero (fun q hq => by have := hb1 q hq; omega)]
        omega
      have hab : a = b := by
        have hca : containsKey ((b, e) :: r2) a := by
          apply containsKey_of_getCount_pos
          rw [← h a, hga]
          exact hc
        have hcb : containsKey ((a, c) :: r1) b := by
          apply containsKey_of_getCount_pos
          rw [h b, hgb]
          exact he
        rcases (containsKey_iff _ _).mp hca with ⟨q, hq, hqk⟩
        rcases (containsKey_iff _ _).mp hcb with ⟨q2, hq2, hq2k⟩
        rcases List.mem_cons.mp hq with hq1 | hqr
        · rw [hq1] at hqk
          exact hqk.symm
        · rcases List.mem_cons.mp hq2 with hq21 | hq2r
          · rw [hq21] at hq2k
            exact hq2k
          · have h1 := hb1 q hqr
            have h2 := ha1 q2 hq2r
            omega
      subst hab
      have hce : c = e := by
        have := h a
        rw [hga, hgb] at this
        exact this
      subst hce
      have htails : ∀ k, getCount r1 k = getCount r2 k := by
        intro k
        by_cases hk : a = k
        · subst hk
          rw [getCount_eq_zero (fun q hq => by have := ha1 q hq; omega),
            getCount_eq_zero (fun q hq => by have := hb1 q hq; omega)]
        · have := h k
          rw [getCount_cons, getCount_cons, if_neg hk] at this
          omega
      rw [ih hr1 hr2 hr1p hr2p htails]

/-! ### The bam record loop -/

theorem bamGo_warnings (records : List (Nat × Bool)) (d : Dist) (w : Bool) :
    (bamGo (records.map Except.ok) d w).2
      = if w = true then 0 else if records.any (fun r => !r.2) = true then 1 else 0 := by
  induction records generalizing d w with
  | nil => cases w <;> rfl
  | cons p r ih =>
    obtain ⟨len, unm⟩ := p
    cases w <;> cases unm <;> simp [bamGo, ih]
    rfl

theorem bamGo_dist (records : List (Nat × Bool)) (d : Dist) (w : Bool) :
    (bamGo (records.map Except.ok) d w).1
      = Except.ok ((records.map Prod.fst).foldl incr d) := by
  induction records generalizing d w with
  | nil => rfl
  | cons p r ih =>
    obtain ⟨len, unm⟩ := p
    simp [bamGo, ih]

theorem gather_multifastx_two (A B : List Nat) :
    gather_multifastx_stats [A.map Except.ok, B.map Except.ok]
      = Except.ok ((A ++ B).foldl incr []) := by
  simp [gather_multifastx_stats, multiGo, gather_fastx_stats_with_seed, gatherGo_ok,
    List.foldl_append]

/-! ### The claims -/

/-- C1: for every sorted non-empty distribution with `total_bases` its base
total and every target in 1..=99, `compute_n_score` returns (without
panicking) the first length of the descending key walk at which the
accumulated bases `Σ (length × count)` over the keys visited so far — which
for a sorted walk equals `basesGE`, the bases in lengths `≥` that key — reach
`target × total_bases / 100` under the (rational-modelled) floating-point
comparison; moreover `compute_n_score {5:10, 10:3} 80 50 = 5`, and on the
empty distribution with `total_bases = 0` it returns 0 for every in-range
target. -/
theorem c1_compute_n_score :
    (∀ d tb t, SortedKeys d → d ≠ [] → tb = totalBases d → 1 ≤ t → t ≤ 99 →
      ∃ l, compute_n_score d tb t = some l ∧ containsKey d l ∧
        nTargetReached t tb (basesGE d l) ∧
        ∀ k, containsKey d k → l < k → ¬ nTargetReached t tb (basesGE d k))
    ∧ compute_n_score [(5, 10), (10, 3)] 80 50 = some 5
    ∧ (∀ t, 1 ≤ t → t ≤ 99 → compute_n_score [] 0 t = some 0) := by
  refine ⟨?_, ?_, ?_⟩
  · intro d tb t hs hne htb h1 h2
    obtain ⟨l, hl⟩ := compute_n_score_some hs hne htb h1 h2
    obtain ⟨m1, m2, m3⟩ := compute_n_score_sound hs hne hl
    exact ⟨l, hl, m1, m2, m3⟩
  · simp [compute_n_score, nScoreGo, nTargetReached_iff]
  · intro t h1 h2
    simp [compute_n_score, nScoreGo, h1, h2]

theorem c1_witness :
    SortedKeys [(2, 3), (7, 1)] ∧ ([(2, 3), (7, 1)] : Dist) ≠ [] ∧
      (13 : Nat) = totalBases [(2, 3), (7, 1)] ∧ (1 : Nat) ≤ 50 ∧ (50 : Nat) ≤ 99 ∧
      (∃ l, compute_n_score [(2, 3), (7, 1)] 13 50 = some l ∧
        containsKey [(2, 3), (7, 1)] l ∧
        nTargetReached 50 13 (basesGE [(2, 3), (7, 1)] l) ∧
        ∀ k, containsKey [(2, 3), (7, 1)] k → l < k →
          ¬ nTargetReached 50 13 (basesGE [(2, 3), (7, 1)] k)) :=
  ⟨by decide, by decide, by decide, by decide, by decide,
    c1_compute_n_score.1 [(2, 3), (7, 1)] 13 50 (by decide) (by decide) (by decide)
      (by decide) (by decide)⟩

/-- C2: for every sorted distribution with `total_seqs` its sequence total
(positive, so the walk can land), `compute_median_length` returns (as a
rational, modelling the `f64` result) the first key of the ascending walk at
which the running sequence count — `countLE` for a sorted walk — strictly
exceeds `mid = total_seqs / 2`; moreover
`compute_median_length {5:10, 10:3} 13 = 5.0` and the empty distribution
yields `0.0`. -/
theorem c2_compute_median_length :
    (∀ d ts, SortedKeys d → ts = totalSeqs d → 0 < ts →
      ∃ l : Nat, compute_median_length d ts = some (l : ℚ) ∧ containsKey d l ∧
        ts / 2 < countLE d l ∧ ∀ k, containsKey d k → k < l → countLE d k ≤ ts / 2)
    ∧ compute_median_length [(5, 10), (10, 3)] 13 = some 5
    ∧ compute_median_length [] 0 = some 0 := by
  refine ⟨?_, by simp [compute_median_length, medianGo], rfl⟩
  intro d ts hs hts hpos
  subst hts
  obtain ⟨l, hl⟩ := medianGo_some (Nat.zero_le (totalSeqs d / 2))
    (by omega : totalSeqs d / 2 < 0 + totalSeqs d)
  obtain ⟨m1, m2, m3⟩ := medianGo_sound hs hl
  refine ⟨l, ?_, m1, by omega, ?_⟩
  · unfold compute_median_length
    rw [hl]
  · intro k hk hkl
    have := m3 k hk hkl
    omega

theorem c2_witness :
    SortedKeys [(2, 3), (7, 1)] ∧ (4 : Nat) = totalSeqs [(2, 3), (7, 1)] ∧ (0 : Nat) < 4 ∧
      (∃ l : Nat, compute_median_length [(2, 3), (7, 1)] 4 = some (l : ℚ) ∧
        containsKey [(2, 3), (7, 1)] l ∧ 4 / 2 < countLE [(2, 3), (7, 1)] l ∧
        ∀ k, containsKey [(2, 3), (7, 1)] k → k < l →
          countLE [(2, 3), (7, 1)] k ≤ 4 / 2) :=
  ⟨by decide, by decide, by decide,
    c2_compute_median_length.1 [(2, 3), (7, 1)] 4 (by decide) (by decide) (by decide)⟩

/-- C3 counterexample: on the sorted positive distribution `{1:1, 2:1}`
(2 sequences, an even count), the fully expanded ascending sequence is
`[1, 2]`, whose lower-middle element (zero-based index `2/2 - 1 = 0`) is `1`,
yet `compute_median_length` returns `2.0` — the code takes the upper side of
the middle pair, not the lower side claimed by the spec (the repository's own
`test_compute_median_length` likewise expects `3.0` for `[1,2,3,4]`). -/
theorem c3_counterexample :
    SortedKeys [(1, 1), (2, 1)] ∧ PosCounts [(1, 1), (2, 1)] ∧
      totalSeqs [(1, 1), (2, 1)] = 2 ∧ 2 % 2 = 0 ∧
      expand [(1, 1), (2, 1)] = [1, 2] ∧
      (expand [(1, 1), (2, 1)]).getD (2 / 2 - 1) 0 = 1 ∧
      compute_median_length [(1, 1), (2, 1)] 2 = some 2 ∧ (2 : ℚ) ≠ (1 : ℚ) := by
  refine ⟨by decide, by decide, by decide, by decide, by decide, by decide, ?_, by norm_num⟩
  simp [compute_median_length, medianGo]

/-- C3 amended: for every distribution whose positive sequence total is `n`
(the even case included), `compute_median_length` returns the element at
zero-based index `n / 2` of the fully expanded ascending sequence — the
upper side of the middle pair when `n` is even, not the lower side. -/
theorem c3_median_even_upper_middle (d : Dist) (n : Nat)
    (hn : n = totalSeqs d) (hpos : 0 < n) (heven : n % 2 = 0) :
    compute_median_length d n = some (((expand d).getD (n / 2) 0 : Nat) : ℚ) := by
  subst hn
  obtain ⟨l, hl⟩ := medianGo_some (Nat.zero_le (totalSeqs d / 2))
    (by omega : totalSeqs d / 2 < 0 + totalSeqs d)
  have hexp := medianGo_expand (Nat.zero_le (totalSeqs d / 2)) hl
  rw [Nat.sub_zero] at hexp
  unfold compute_median_length
  rw [hl, hexp]

theorem c3_witness :
    ((2 : Nat) = totalSeqs [(1, 1), (2, 1)] ∧ (0 : Nat) < 2 ∧ 2 % 2 = 0) ∧
      compute_median_length [(1, 1), (2, 1)] 2
        = some (((expand [(1, 1), (2, 1)]).getD (2 / 2) 0 : Nat) : ℚ) :=
  ⟨⟨by decide, by decide, by decide⟩,
    c3_median_even_upper_middle [(1, 1), (2, 1)] 2 (by decide) (by decide) (by decide)⟩

/-- C4: `compute_total_counts` returns exactly
`(Σ (length × count), Σ count)`, is `(0, 0)` on the empty distribution, and
maps `{5:10, 10:3}` to `(80, 13)`. -/
theorem c4_compute_total_counts :
    (∀ d, compute_total_counts d = (totalBases d, totalSeqs d))
    ∧ compute_total_counts [] = (0, 0)
    ∧ compute_total_counts [(5, 10), (10, 3)] = (80, 13) :=
  ⟨compute_total_counts_eq, rfl, by decide⟩

/-- C5: on the empty distribution the totals are `(0, 0)`, the median is
`0.0`, every in-range N-score is `0`, and `compute_length_stats` completes
without panicking (returns `some`), with every field other than
`mean_length` taking those zero values (`mean_length` itself is the IEEE
`0/0`, which the `ℚ` model cannot express as NaN and which the claim allows
to be non-finite, so it is left unconstrained here). -/
theorem c5_empty_distribution :
    compute_total_counts [] = (0, 0)
    ∧ compute_median_length [] 0 = some 0
    ∧ (∀ t, 1 ≤ t → t ≤ 99 → compute_n_score [] 0 t = some 0)
    ∧ ∃ s, compute_length_stats [] = some s ∧ s.total_bases = 0 ∧
        s.total_sequences = 0 ∧ s.median_length = 0 ∧ s.n10 = 0 ∧ s.n25 = 0 ∧
        s.n50 = 0 ∧ s.n75 = 0 ∧ s.n90 = 0 := by
  refine ⟨rfl, rfl, ?_, ?_⟩
  · intro t h1 h2
    simp [compute_n_score, nScoreGo, h1, h2]
  · refine ⟨⟨0, 0, 0, 0, 0, 0, 0, 0, 0⟩, ?_, rfl, rfl, rfl, rfl, rfl, rfl, rfl, rfl⟩
    simp [compute_length_stats, compute_total_counts, compute_median_length, medianGo,
      compute_n_score, nScoreGo]

theorem c5_witness :
    ((1 : Nat) ≤ 50 ∧ (50 : Nat) ≤ 99) ∧ compute_n_score [] 0 50 = some 0 :=
  ⟨⟨by decide, by decide⟩, c5_empty_distribution.2.2.1 50 (by decide) (by decide)⟩

/-- C6: a target outside 1..=99 (zero or at least 100) trips the leading
`assert!` of `compute_n_score` — modelled as `none` — for every distribution
and every `total_bases`: the target is never clamped and no length is ever
returned. -/
theorem c6_out_of_range_target (d : Dist) (tb t : Nat) (h : t = 0 ∨ 100 ≤ t) :
    compute_n_score d tb t = none := by
  unfold compute_n_score
  rw [if_neg]
  intro hc
  omega

theorem c6_witness :
    ((0 : Nat) = 0 ∨ 100 ≤ (0 : Nat)) ∧ compute_n_score [(5, 10), (10, 3)] 80 0 = none :=
  ⟨Or.inl rfl, c6_out_of_range_target [(5, 10), (10, 3)] 80 0 (Or.inl rfl)⟩

/-- C7: for every seed distribution and every stream of successfully read
record lengths, `gather_fastx_stats_with_seed` succeeds and returns the
pointwise sum of the seed and the histogram of the observed lengths: each
key's count is the seed count plus the number of records of that length, no
key of the seed is removed, and no count decreases. -/
theorem c7_gather_with_seed (seed : Dist) (lengths : List Nat) :
    ∃ D, gather_fastx_stats_with_seed (lengths.map Except.ok) (some seed) = Except.ok D
      ∧ (∀ k, getCount D k = getCount seed k + lengths.count k)
      ∧ (∀ k, containsKey seed k → containsKey D k)
      ∧ (∀ k, getCount seed k ≤ getCount D k) := by
  refine ⟨lengths.foldl incr seed, ?_, ?_, ?_, ?_⟩
  · unfold gather_fastx_stats_with_seed
    simp only [Option.getD_some]
    exact gatherGo_ok lengths seed
  · intro k
    exact getCount_foldl lengths seed k
  · intro k hk
    exact containsKey_foldl lengths seed k hk
  · intro k
    rw [getCount_foldl]
    omega

/-- C8: for successfully readable sources `A` and `B`, the merged
distribution over `[A, B]` equals the one over `[B, A]` (commutativity), and
both equal the single-pass aggregation of the virtual concatenated source
with `A`'s records followed by `B`'s — hence all derived statistics agree. -/
theorem c8_merge_commutes (A B : List Nat) :
    gather_multifastx_stats [A.map Except.ok, B.map Except.ok]
      = gather_multifastx_stats [B.map Except.ok, A.map Except.ok]
    ∧ gather_multifastx_stats [A.map Except.ok, B.map Except.ok]
      = gather_fastx_stats ((A ++ B).map Except.ok) := by
  have hAB := gather_multifastx_two A B
  have hBA := gather_multifastx_two B A
  constructor
  · rw [hAB, hBA]
    congr 1
    apply dist_ext (sortedKeys_foldl _ (by simp [SortedKeys]))
      (sortedKeys_foldl _ (by simp [SortedKeys]))
      (posCounts_foldl _ (by intro p hp; cases hp))
      (posCounts_foldl _ (by intro p hp; cases hp))
    intro k
    rw [getCount_foldl, getCount_foldl, List.count_append, List.count_append]
    omega
  · rw [hAB]
    unfold gather_fastx_stats gather_fastx_stats_with_seed
    simp only [Option.getD_none]
    rw [gatherGo_ok]

/-- C9: a `gather_bam_stats_with_seed` pass over successfully decoded records
(each carrying its length and `is_unmapped` flag) emits exactly one advisory
warning when some record is aligned (`is_unmapped = false`) — never two in
one pass — and none when every record is unmapped; and the resulting
distribution is exactly the one the fastx aggregator produces from the
lengths alone, so alignment status never alters counting. -/
theorem c9_bam_warning_once (records : List (Nat × Bool)) (seed : Option Dist) :
    (gather_bam_stats_with_seed (records.map Except.ok) seed).2
      = (if (records.any fun r => !r.2) = true then 1 else 0)
    ∧ (gather_bam_stats_with_seed (records.map Except.ok) seed).1
      = gather_fastx_stats_with_seed (records.map fun r => Except.ok r.1) seed := by
  constructor
  · rw [gather_bam_stats_with_seed, bamGo_warnings]
    rfl
  · rw [gather_bam_stats_with_seed, bamGo_dist, gather_fastx_stats_with_seed]
    have hmap : (records.map fun r => (Except.ok r.1 : Except String Nat))
        = (records.map Prod.fst).map Except.ok := by
      rw [List.map_map]
      rfl
    rw [hmap, gatherGo_ok]

/-- C10: on a sorted non-empty distribution with its true base total,
`compute_n_score` is monotonically non-increasing in the target over 1..=99;
consequently every report `compute_length_stats` produces satisfies
`n10 ≥ n25 ≥ n50 ≥ n75 ≥ n90`. -/
theorem c10_n_score_monotone :
    (∀ d tb t1 t2, SortedKeys d → d ≠ [] → tb = totalBases d →
      1 ≤ t1 → t1 ≤ t2 → t2 ≤ 99 →
      ∃ l1 l2, compute_n_score d tb t1 = some l1 ∧ compute_n_score d tb t2 = some l2 ∧
        l2 ≤ l1)
    ∧ (∀ d s, SortedKeys d → compute_length_stats d = some s →
        s.n25 ≤ s.n10 ∧ s.n50 ≤ s.n25 ∧ s.n75 ≤ s.n50 ∧ s.n90 ≤ s.n75) := by
  constructor
  · intro d tb t1 t2 hs hne htb h1 hle h2
    obtain ⟨l1, hl1⟩ := compute_n_score_some hs hne htb h1 (le_trans hle h2)
    obtain ⟨l2, hl2⟩ := compute_n_score_some hs hne htb (le_trans h1 hle) h2
    exact ⟨l1, l2, hl1, hl2, compute_n_score_mono hs hle hl1 hl2⟩
  · intro d s hs h
    unfold compute_length_stats at h
    simp only [Option.bind_eq_some] at h
    obtain ⟨med, hmed, v10, h10, v25, h25, v50, h50, v75, h75, v90, h90, hsome⟩ := h
    injection hsome with hsome
    subst hsome
    refine ⟨?_, ?_, ?_, ?_⟩
    · exact compute_n_score_mono hs (by omega) h10 h25
    · exact compute_n_score_mono hs (by omega) h25 h50
    · exact compute_n_score_mono hs (by omega) h50 h75
    · exact compute_n_score_mono hs (by omega) h75 h90

theorem c10_witness :
    SortedKeys [(2, 3), (7, 1)] ∧ ([(2, 3), (7, 1)] : Dist) ≠ [] ∧
      (13 : Nat) = totalBases [(2, 3), (7, 1)] ∧ (1 : Nat) ≤ 25 ∧ (25 : Nat) ≤ 75 ∧
      (75 : Nat) ≤ 99 ∧
      (∃ l1 l2, compute_n_score [(2, 3), (7, 1)] 13 25 = some l1 ∧
        compute_n_score [(2, 3), (7, 1)] 13 75 = some l2 ∧ l2 ≤ l1) :=
  ⟨by decide, by decide, by decide, by decide, by decide, by decide,
    c10_n_score_monotone.1 [(2, 3), (7, 1)] 13 25 75 (by decide) (by decide) (by decide)
      (by decide) (by decide) (by decide)⟩

end Fastleng
